import Mathlib

set_option autoImplicit false
set_option maxHeartbeats 1000000
set_option linter.unusedVariables false

/-!
Shallow embedding of wii-tools/powerpc: the patch engine (`modify_dol.go`)
and the pieces of the instruction encoder (`powerpc.go`) that the theorems
below refer to.  Bytes are modelled as `Nat`, byte buffers as `List Nat`,
Go `int` as `Int`, and Go `uint`/`uint32`/`uint16` arithmetic as explicit
`% 2 ^ w`.  Slice capacity is modelled as equal to slice length, so a slice
expression reaching past the length is a runtime panic.
-/

namespace PowerPC

/-- The three error values declared at the top of modify_dol.go
(`ErrInconsistentPatch`, `ErrPatchOutOfRange`, `ErrInvalidPatch`). -/
inductive PatchError where
  | inconsistentPatch
  | patchOutOfRange
  | invalidPatch
deriving DecidableEq, Repr

/-- A Go `([]byte, error)` return value, plus the possibility that the call
panicked before returning.  `buf = none` models a returned nil slice. -/
inductive Outcome where
  | ret (buf : Option (List Nat)) (err : Option PatchError)
  | panicked
deriving DecidableEq, Repr

/-- Patch (modify_dol.go): optional name (logging only), anchor offset
(a Go `int`; `0` is overloaded to mean unanchored), the bytes expected in the
original file, and the replacement bytes. -/
structure Patch where
  Name : String
  AtOffset : Int
  Before : List Nat
  After : List Nat
deriving DecidableEq, Repr

/-- PatchSet (modify_dol.go): a named list of patches. -/
structure PatchSet where
  Name : String
  Patches : List Patch
deriving DecidableEq, Repr

/-- Go `copy(binary[off:], src)` (for `off ≤ binary.length`): overwrites
`min (len src) (len binary - off)` bytes in place starting at `off`. -/
def copyAt (binary : List Nat) (off : Nat) (src : List Nat) : List Nat :=
  binary.take off ++ src.take (min src.length (binary.length - off))
    ++ binary.drop (off + min src.length (binary.length - off))

/-- `startsWith s p` is true when `p` is a leading run of `s`
(Go `bytes.HasPrefix(s, p)`). -/
def startsWith : List Nat → List Nat → Bool
  | _, [] => true
  | [], _ :: _ => false
  | a :: s, b :: p => a == b && startsWith s p

/-- `containsSeq p s` is true when `p` occurs contiguously somewhere in `s`
(Go `bytes.Contains(s, p)`). -/
def containsSeq (p : List Nat) : List Nat → Bool
  | [] => p.isEmpty
  | b :: t => startsWith (b :: t) p || containsSeq p t

/-- Fuel-indexed body of Go `bytes.Replace(s, old, new, -1)`: scan left to
right; where `old` is a leading run of the rest, emit `new` and skip the
matched `old.length` bytes (non-overlapping), otherwise keep one byte and
move on.  The fuel only bounds the recursion: `replaceFuel_fuel_irrelevant`
below shows any fuel of at least `s.length` gives the same answer. -/
def replaceFuel (old new : List Nat) : Nat → List Nat → List Nat
  | 0, s => s
  | _ + 1, [] => []
  | fuel + 1, b :: s =>
    if startsWith (b :: s) old then
      new ++ replaceFuel old new fuel (s.drop (old.length - 1))
    else
      b :: replaceFuel old new fuel s

/-- Go `bytes.ReplaceAll(binary, old, new)` as reached from `ApplyPatch`.
(For empty `old` Go inserts `new` at rune boundaries; `ApplyPatch` reaches
that case only with `new` empty as well, because the length check ran first,
and there the result is `binary` either way.) -/
def bytesReplaceAll (binary old new : List Nat) : List Nat :=
  if old.isEmpty then binary else replaceFuel old new binary.length binary

/-- ApplyPatch (modify_dol.go).  The name-logging `fmt.Println` is outside the
mutation contract and is not modelled.  The result pairs the Go return value
with the final contents of the caller's buffer (anchored patches mutate it in
place; every error return happens before any mutation, and the unanchored
branch builds a fresh slice). -/
def ApplyPatch (patch : Patch) (binary : List Nat) : Outcome × List Nat :=
  if patch.Before.length ≠ patch.After.length then
    (.ret none (some .inconsistentPatch), binary)
  else if patch.AtOffset ≠ 0 ∧ (binary.length : Int) < patch.AtOffset then
    (.ret none (some .patchOutOfRange), binary)
  else if patch.AtOffset ≠ 0 then
    if 0 ≤ patch.AtOffset ∧
        patch.AtOffset + (patch.Before.length : Int) ≤ (binary.length : Int) then
      if (binary.drop patch.AtOffset.toNat).take patch.Before.length ≠ patch.Before then
        (.ret none (some .invalidPatch), binary)
      else
        (.ret (some (copyAt binary patch.AtOffset.toNat patch.After)) none,
          copyAt binary patch.AtOffset.toNat patch.After)
    else
      (.panicked, binary)
  else
    (.ret (some (bytesReplaceAll binary patch.Before patch.After)) none, binary)

/-- The loop body of ApplyPatchSet (modify_dol.go): `binary, err =
ApplyPatch(patch, binary)`; on a non-nil error return `nil, err`.  A nil
returned slice would continue as the empty buffer (`getD []`), matching Go's
nil-slice behaviour; a panic propagates. -/
def applyLoop : List Patch → List Nat → Outcome × List Nat
  | [], binary => (.ret (some binary) none, binary)
  | patch :: rest, binary =>
    match ApplyPatch patch binary with
    | (.panicked, st) => (.panicked, st)
    | (.ret _ (some e), st) => (.ret none (some e), st)
    | (.ret r none, _) => applyLoop rest (r.getD [])

/-- ApplyPatchSet (modify_dol.go).  The set-name logging is not modelled. -/
def ApplyPatchSet (set : PatchSet) (binary : List Nat) : Outcome × List Nat :=
  applyLoop set.Patches binary

/-- The loop body of ApplyPatchSets (modify_dol.go). -/
def setsLoop : List PatchSet → List Nat → Outcome × List Nat
  | [], binary => (.ret (some binary) none, binary)
  | set :: rest, binary =>
    match ApplyPatchSet set binary with
    | (.panicked, st) => (.panicked, st)
    | (.ret _ (some e), st) => (.ret none (some e), st)
    | (.ret r none, _) => setsLoop rest (r.getD [])

/-- ApplyPatchSets (modify_dol.go). -/
def ApplyPatchSets (sets : List PatchSet) (binary : List Nat) : Outcome × List Nat :=
  setsLoop sets binary

/-- fourByte (powerpc.go): the four big-endian bytes of a uint32. -/
def fourByte (value : Nat) : List Nat :=
  [value / 2 ^ 24 % 256, value / 2 ^ 16 % 256, value / 2 ^ 8 % 256, value % 256]

/-- uint24 (powerpc.go): panics (`none`) when the value exceeds `0x00FFFFFF`,
otherwise returns bytes 1..3 of `fourByte num`. -/
def uint24 (num : Nat) : Option (Nat × Nat × Nat) :=
  if 0x00FFFFFF < num then none
  else some ((fourByte num).getD 1 0, (fourByte num).getD 2 0, (fourByte num).getD 3 0)

/-- calcDestination (powerpc.go): `offset := target - from` in Go `uint`
arithmetic (64-bit, wrap-around), `calc := uint32(offset >> 2)` (logical
shift, then truncation to 32 bits), then `uint24 calc`; `none` is the uint24
panic.  `from` is spelled `fromAddr` because `from` is a Lean keyword. -/
def calcDestination (fromAddr target : Nat) : Option (Nat × Nat × Nat) :=
  uint24 ((target % 2 ^ 64 + (2 ^ 64 - fromAddr % 2 ^ 64)) % 2 ^ 64 / 4 % 2 ^ 32)

/-- Instruction (powerpc.go): a 4-byte PowerPC instruction word, here the
list of its four bytes. -/
abbrev Instruction := List Nat

/-- Modelled from the spec: `EncodeInstrDForm` is code of this repository
that is not under src/ (powerpc.go only calls it).  Spec §4.1: the D-Form
packs opcode(6) · target-reg(5) · source-reg(5) · 16-bit immediate, MSB
first, into one 32-bit big-endian word. -/
def EncodeInstrDForm (opcode rT rA value : Nat) : Instruction :=
  fourByte (opcode % 2 ^ 6 * 2 ^ 26 + rT % 2 ^ 5 * 2 ^ 21 + rA % 2 ^ 5 * 2 ^ 16
    + value % 2 ^ 16)

/-- ADDI (powerpc.go): `EncodeInstrDForm(14, rT, rA, value)`. -/
def ADDI (rT rA value : Nat) : Instruction :=
  EncodeInstrDForm 14 rT rA value

/-- SUBI (powerpc.go): `ADDI(rT, 0, -value)`, where `-value` is Go uint16
negation, i.e. `(2 ^ 16 - value % 2 ^ 16) % 2 ^ 16`.  Its `rA` argument is
not used by the body. -/
def SUBI (rT rA value : Nat) : Instruction :=
  ADDI rT 0 ((2 ^ 16 - value % 2 ^ 16) % 2 ^ 16)

/-! ### Shared lemmas about the patch engine -/

/-- Every error return of `ApplyPatch` happens before any mutation: the
returned slice is nil and the caller's buffer keeps its input bytes. -/
theorem applyPatch_error_eq (patch : Patch) (binary : List Nat)
    (r : Option (List Nat)) (e : PatchError) (st : List Nat)
    (h : ApplyPatch patch binary = (.ret r (some e), st)) :
    r = none ∧ st = binary := by
  unfold ApplyPatch at h
  repeat' split at h
  all_goals simp_all

/-- C7: for every patch whose `Before` and `After` have different lengths and
every buffer, `ApplyPatch` fails with the inconsistent-length error before any
mutation, returning a nil buffer and leaving the caller's bytes identical. -/
theorem c7_inconsistent_length_fails (patch : Patch) (binary : List Nat)
    (h : patch.Before.length ≠ patch.After.length) :
    ApplyPatch patch binary = (.ret none (some .inconsistentPatch), binary) := by
  unfold ApplyPatch
  rw [if_pos h]

/-- Witness for C7 at the spec's own example, `Before=[0x01]`,
`After=[0x01,0x02]`. -/
theorem c7_witness :
    (⟨"", 0, [0x01], [0x01, 0x02]⟩ : Patch).Before.length
        ≠ (⟨"", 0, [0x01], [0x01, 0x02]⟩ : Patch).After.length
    ∧ ApplyPatch ⟨"", 0, [0x01], [0x01, 0x02]⟩ [5, 6]
        = (.ret none (some .inconsistentPatch), [5, 6]) :=
  ⟨by decide, c7_inconsistent_length_fails ⟨"", 0, [0x01], [0x01, 0x02]⟩ [5, 6] (by decide)⟩

/-- C2: an anchored patch (non-zero offset) with equal-length
`Before`/`After` whose expected read is in range but differs from the
buffer's actual bytes fails with the invalid-patch error, and the caller's
buffer is left byte-identical to its input. -/
theorem c2_anchored_mismatch_fails (nm : String) (a : Nat)
    (before after binary : List Nat)
    (ha : a ≠ 0) (hlen : before.length = after.length)
    (hbound : a + before.length ≤ binary.length)
    (hmismatch : (binary.drop a).take before.length ≠ before) :
    ApplyPatch ⟨nm, (a : Int), before, after⟩ binary
      = (.ret none (some .invalidPatch), binary) := by
  unfold ApplyPatch
  dsimp only
  rw [if_neg (show ¬before.length ≠ after.length by omega),
    if_neg (show ¬((a : Int) ≠ 0 ∧ (binary.length : Int) < (a : Int)) by omega),
    if_pos (show (a : Int) ≠ 0 by omega),
    if_pos (show 0 ≤ (a : Int)
      ∧ (a : Int) + (before.length : Int) ≤ (binary.length : Int) by omega),
    show ((a : Int)).toNat = a by omega,
    if_pos hmismatch]

/-- Witness for C2 at the spec's example: bytes 4–5 are `[0x00, 0x00]`
instead of the expected `[0xAA, 0xBB]`. -/
theorem c2_witness :
    ApplyPatch ⟨"", (4 : Nat), [0xAA, 0xBB], [0xCC, 0xDD]⟩ [0, 1, 2, 3, 0, 0, 6, 7]
      = (.ret none (some .invalidPatch), [0, 1, 2, 3, 0, 0, 6, 7]) :=
  c2_anchored_mismatch_fails ("") 4 [0xAA, 0xBB] [0xCC, 0xDD] [0, 1, 2, 3, 0, 0, 6, 7]
    (by decide) (by decide) (by decide) (by decide)

/-- C1 (amended with the inconsistent-length guard): an anchored patch with
equal-length `Before`/`After` whose expected bytes are present at
`[a, a + len Before)` succeeds, the returned buffer is the caller's mutated
buffer `take a ++ After ++ drop (a + len After)`, the bytes at
`[a, a + len After)` are now `After`, and every byte outside that range is
unchanged. -/
theorem c1_anchored_patch_applies (nm : String) (a : Nat)
    (before after binary : List Nat)
    (ha : a ≠ 0) (hlen : before.length = after.length)
    (hbound : a + before.length ≤ binary.length)
    (hmatch : (binary.drop a).take before.length = before) :
    ApplyPatch ⟨nm, (a : Int), before, after⟩ binary
        = (.ret (some (binary.take a ++ after ++ binary.drop (a + after.length))) none,
            binary.take a ++ after ++ binary.drop (a + after.length))
    ∧ (binary.take a ++ after ++ binary.drop (a + after.length)).length = binary.length
    ∧ (binary.take a ++ after ++ binary.drop (a + after.length)).take a = binary.take a
    ∧ ((binary.take a ++ after ++ binary.drop (a + after.length)).drop a).take after.length
        = after
    ∧ (binary.take a ++ after ++ binary.drop (a + after.length)).drop (a + after.length)
        = binary.drop (a + after.length) := by
  have htl : (binary.take a).length = a := by rw [List.length_take]; omega
  have hmin : min after.length (binary.length - a) = after.length := by omega
  refine ⟨?_, ?_, ?_, ?_, ?_⟩
  · unfold ApplyPatch
    dsimp only
    rw [if_neg (show ¬before.length ≠ after.length by omega),
      if_neg (show ¬((a : Int) ≠ 0 ∧ (binary.length : Int) < (a : Int)) by omega),
      if_pos (show (a : Int) ≠ 0 by omega),
      if_pos (show 0 ≤ (a : Int)
        ∧ (a : Int) + (before.length : Int) ≤ (binary.length : Int) by omega),
      show ((a : Int)).toNat = a by omega,
      if_neg (show ¬(binary.drop a).take before.length ≠ before from not_not_intro hmatch)]
    unfold copyAt
    rw [hmin, List.take_length]
  · rw [List.length_append, List.length_append, htl, List.length_drop]; omega
  · rw [List.append_assoc, List.take_left' htl]
  · rw [List.append_assoc, List.drop_left' htl, List.take_left]
  · have h2 : (binary.take a ++ after).length = a + after.length := by
      rw [List.length_append, htl]
    rw [List.drop_left' h2]

/-- Witness for C1: the spec's anchored example, `AtOffset=4`,
`Before=[0xAA, 0xBB]`, `After=[0xCC, 0xDD]`. -/
theorem c1_witness :
    ApplyPatch ⟨"", (4 : Nat), [0xAA, 0xBB], [0xCC, 0xDD]⟩ [0, 1, 2, 3, 0xAA, 0xBB, 6, 7]
        = (.ret (some ([0, 1, 2, 3] ++ [0xCC, 0xDD] ++ [6, 7])) none,
            [0, 1, 2, 3] ++ [0xCC, 0xDD] ++ [6, 7])
    ∧ ([0, 1, 2, 3] ++ [0xCC, 0xDD] ++ ([6, 7] : List Nat)).length = 8
    ∧ (([0, 1, 2, 3] ++ [0xCC, 0xDD] ++ ([6, 7] : List Nat)).drop 4).take 2 = [0xCC, 0xDD] := by
  have h := c1_anchored_patch_applies ("") 4 [0xAA, 0xBB] [0xCC, 0xDD]
    [0, 1, 2, 3, 0xAA, 0xBB, 6, 7] (by decide) (by decide) (by decide) (by decide)
  exact ⟨h.1, h.2.1, h.2.2.2.1⟩

/-- C1 as frozen is falsified by a patch whose `Before` and `After` lengths
differ: the anchored bytes match `Before`, yet the call fails with the
inconsistent-length error instead of succeeding. -/
theorem c1_counterexample :
    (⟨"", 4, [0xAA, 0xBB], [0xCC]⟩ : Patch).AtOffset ≠ 0
    ∧ (([0, 0, 0, 0, 0xAA, 0xBB, 0] : List Nat).drop 4).take 2 = [0xAA, 0xBB]
    ∧ ApplyPatch ⟨"", 4, [0xAA, 0xBB], [0xCC]⟩ [0, 0, 0, 0, 0xAA, 0xBB, 0]
        = (.ret none (some .inconsistentPatch), [0, 0, 0, 0, 0xAA, 0xBB, 0]) := by
  decide

/-- C6: the anchored bounds check only rejects `AtOffset > len(binary)`; a
patch whose read `[AtOffset, AtOffset + len Before)` overruns the end of the
buffer passes both checks and then panics on the slice expression
(out-of-bounds access), as does a negative `AtOffset`.  The third conjunct
records the half of the claim the code does satisfy: an offset strictly
beyond the buffer is rejected with the out-of-range error before mutation. -/
theorem c6_insufficient_bounds_check :
    ApplyPatch ⟨"", 1, [0x01, 0x02], [0x03, 0x04]⟩ [0x00] = (.panicked, [0x00])
    ∧ ApplyPatch ⟨"", -1, [0x01], [0x02]⟩ [0, 0] = (.panicked, [0, 0])
    ∧ ApplyPatch ⟨"", 9, [1], [2]⟩ [0] = (.ret none (some .patchOutOfRange), [0]) := by
  decide

/-! ### The global (unanchored) replacement scan -/

/-- `replaceFuel` maps the empty buffer to itself for any fuel. -/
theorem replaceFuel_nil (old new : List Nat) (f : Nat) :
    replaceFuel old new f [] = [] := by
  cases f <;> rfl

/-- Fuel does not matter once it covers the buffer length: `replaceFuel` is a
total left-to-right scan. -/
theorem replaceFuel_fuel_irrelevant (old new : List Nat) :
    ∀ (f1 : Nat) (s : List Nat) (f2 : Nat), s.length ≤ f1 → s.length ≤ f2 →
      replaceFuel old new f1 s = replaceFuel old new f2 s := by
  intro f1
  induction f1 with
  | zero =>
    intro s f2 h1 _
    have hs : s = [] := List.eq_nil_of_length_eq_zero (by omega)
    subst hs
    rw [replaceFuel_nil, replaceFuel_nil]
  | succ g ih =>
    intro s f2 h1 h2
    cases s with
    | nil => rw [replaceFuel_nil, replaceFuel_nil]
    | cons b s' =>
      cases f2 with
      | zero => simp at h2
      | succ h =>
        simp only [replaceFuel]
        by_cases hc : startsWith (b :: s') old = true
        · rw [if_pos hc, if_pos hc]
          refine congrArg (new ++ ·) (ih _ _ ?_ ?_) <;>
            · rw [List.length_drop]
              simp only [List.length_cons] at h1 h2
              omega
        · rw [if_neg hc, if_neg hc]
          refine congrArg (b :: ·) (ih _ _ ?_ ?_) <;>
            · simp only [List.length_cons] at h1 h2
              omega

/-- The empty pattern occurs in every buffer. -/
theorem containsSeq_nil (s : List Nat) : containsSeq [] s = true := by
  cases s <;> simp [containsSeq, startsWith]

/-- A buffer containing no occurrence of `old` is returned unchanged by the
scan, whatever the fuel. -/
theorem replaceFuel_of_not_contains (old new : List Nat) :
    ∀ (f : Nat) (s : List Nat), containsSeq old s = false →
      replaceFuel old new f s = s := by
  intro f
  induction f with
  | zero => intro s _; rfl
  | succ g ih =>
    intro s hs
    cases s with
    | nil => rfl
    | cons b s' =>
      simp only [containsSeq, Bool.or_eq_false_iff] at hs
      simp only [replaceFuel, hs.1, Bool.false_eq_true, if_false]
      exact congrArg (b :: ·) (ih s' hs.2)

/-- Every byte sequence is a leading run of itself followed by anything. -/
theorem startsWith_self_append (p t : List Nat) : startsWith (p ++ t) p = true := by
  induction p with
  | nil => cases t <;> rfl
  | cons a p' ih => simp [startsWith, ih]

/-- The scan is left-to-right and non-overlapping: if no occurrence of `old`
begins inside `x`, the occurrence sitting right after `x` is replaced and the
scan resumes after it. -/
theorem replaceFuel_step (old new : List Nat) (hold : old ≠ []) :
    ∀ (x : List Nat) (f : Nat) (y : List Nat),
      (x ++ old ++ y).length ≤ f →
      (∀ i, i < x.length → startsWith ((x ++ old ++ y).drop i) old = false) →
      replaceFuel old new f (x ++ old ++ y)
        = x ++ new ++ replaceFuel old new (f - x.length - 1) y := by
  intro x
  induction x with
  | nil =>
    intro f y hf _
    cases old with
    | nil => exact absurd rfl hold
    | cons o os =>
      cases f with
      | zero =>
        simp only [List.nil_append, List.length_append, List.length_cons] at hf
        omega
      | succ g =>
        have hsw : startsWith (o :: (os ++ y)) (o :: os) = true :=
          startsWith_self_append (o :: os) y
        have hdrop : (os ++ y).drop ((o :: os).length - 1) = y := by
          show (os ++ y).drop (os.length + 1 - 1) = y
          rw [Nat.add_sub_cancel]
          exact List.drop_left os y
        show replaceFuel (o :: os) new (g + 1) (o :: (os ++ y))
            = [] ++ new ++ replaceFuel (o :: os) new (g + 1 - List.length [] - 1) y
        simp only [replaceFuel]
        rw [if_pos hsw, hdrop]
        simp only [List.nil_append, List.length_nil, Nat.sub_zero, Nat.add_sub_cancel]
  | cons a x' ih =>
    intro f y hf hno
    cases f with
    | zero =>
      simp only [List.cons_append, List.length_append, List.length_cons] at hf
      omega
    | succ g =>
      have h0 : startsWith (a :: (x' ++ old ++ y)) old = false := by
        have h00 := hno 0 (by simp)
        rwa [List.drop_zero] at h00
      have harith : g + 1 - (a :: x').length - 1 = g - x'.length - 1 := by
        simp only [List.length_cons]; omega
      show replaceFuel old new (g + 1) (a :: (x' ++ old ++ y))
          = a :: (x' ++ new ++ replaceFuel old new (g + 1 - (a :: x').length - 1) y)
      simp only [replaceFuel]
      rw [if_neg (by rw [h0]; simp), harith]
      refine congrArg (a :: ·) (ih g y ?_ ?_)
      · simp only [List.cons_append, List.length_cons, List.length_append] at hf ⊢
        omega
      · intro i hi
        have h01 := hno (i + 1) (by simp only [List.length_cons]; omega)
        rwa [show ((a :: x') ++ old ++ y).drop (i + 1) = (x' ++ old ++ y).drop i from rfl]
          at h01

/-- `bytesReplaceAll` leaves a buffer with no occurrence of `old` unchanged. -/
theorem bytesReplaceAll_of_not_contains (s old new : List Nat)
    (h : containsSeq old s = false) : bytesReplaceAll s old new = s := by
  cases old with
  | nil => rw [containsSeq_nil] at h; cases h
  | cons o os =>
    unfold bytesReplaceAll
    rw [if_neg (by simp)]
    exact replaceFuel_of_not_contains (o :: os) new s.length s h

/-- `bytesReplaceAll` replaces the first occurrence of a non-empty `old` and
resumes the same scan after it, non-overlapping. -/
theorem bytesReplaceAll_step (old new x y : List Nat) (hold : old ≠ [])
    (hno : ∀ i, i < x.length → startsWith ((x ++ old ++ y).drop i) old = false) :
    bytesReplaceAll (x ++ old ++ y) old new = x ++ new ++ bytesReplaceAll y old new := by
  cases old with
  | nil => exact absurd rfl hold
  | cons o os =>
    unfold bytesReplaceAll
    rw [if_neg (by simp), if_neg (by simp)]
    rw [replaceFuel_step (o :: os) new hold x (x ++ (o :: os) ++ y).length y le_rfl hno]
    refine congrArg (x ++ new ++ ·) (replaceFuel_fuel_irrelevant (o :: os) new _ y _ ?_ le_rfl)
    simp only [List.length_append, List.length_cons]
    omega

/-- C8: an unanchored patch (`AtOffset = 0`) with equal-length
`Before`/`After` always succeeds, returning the Go `bytes.ReplaceAll` of the
buffer (the caller's buffer itself is not mutated in place); zero occurrences
leave the buffer unchanged and are not an error, and each occurrence of
`Before` after an occurrence-free stretch is replaced left to right,
non-overlapping. -/
theorem c8_unanchored_global_replace (nm : String) (before after binary : List Nat)
    (hlen : before.length = after.length) :
    ApplyPatch ⟨nm, 0, before, after⟩ binary
        = (.ret (some (bytesReplaceAll binary before after)) none, binary)
    ∧ (containsSeq before binary = false → bytesReplaceAll binary before after = binary)
    ∧ (∀ x y, binary = x ++ before ++ y → before ≠ [] →
        (∀ i, i < x.length → startsWith (binary.drop i) before = false) →
        bytesReplaceAll binary before after = x ++ after ++ bytesReplaceAll y before after) := by
  refine ⟨?_, fun h => bytesReplaceAll_of_not_contains binary before after h, ?_⟩
  · unfold ApplyPatch
    dsimp only
    rw [if_neg (show ¬before.length ≠ after.length by omega),
      if_neg (show ¬((0 : Int) ≠ 0 ∧ (binary.length : Int) < (0 : Int)) by omega),
      if_neg (show ¬((0 : Int) ≠ 0) by omega)]
  · intro x y hbin hne hno
    subst hbin
    exact bytesReplaceAll_step before after x y hne hno

/-- Witness for C8 at the spec's example: the `blr` pattern
`[0x4E, 0x80, 0x00, 0x20]` at two disjoint locations, both replaced. -/
theorem c8_witness :
    ApplyPatch ⟨"", 0, [0x4E, 0x80, 0x00, 0x20], [1, 2, 3, 4]⟩
        [0x4E, 0x80, 0x00, 0x20, 9, 0x4E, 0x80, 0x00, 0x20]
      = (.ret (some (bytesReplaceAll [0x4E, 0x80, 0x00, 0x20, 9, 0x4E, 0x80, 0x00, 0x20]
            [0x4E, 0x80, 0x00, 0x20] [1, 2, 3, 4])) none,
          [0x4E, 0x80, 0x00, 0x20, 9, 0x4E, 0x80, 0x00, 0x20])
    ∧ bytesReplaceAll [0x4E, 0x80, 0x00, 0x20, 9, 0x4E, 0x80, 0x00, 0x20]
        [0x4E, 0x80, 0x00, 0x20] [1, 2, 3, 4] = [1, 2, 3, 4, 9, 1, 2, 3, 4] :=
  ⟨(c8_unanchored_global_replace ("") [0x4E, 0x80, 0x00, 0x20] [1, 2, 3, 4]
      [0x4E, 0x80, 0x00, 0x20, 9, 0x4E, 0x80, 0x00, 0x20] (by decide)).1, by decide⟩

/-! ### Patch sets: fail-fast, no rollback, nil buffer on error -/

/-- After a successful prefix run, the first failing patch makes the whole
loop return that patch's error with a nil buffer, whatever comes after it. -/
theorem applyLoop_append_fail (p : Patch) (e : PatchError) :
    ∀ (ps1 : List Patch) (binary b' : List Nat) (r : Option (List Nat))
      (st : List Nat) (ps2 : List Patch),
      applyLoop ps1 binary = (.ret (some b') none, b') →
      ApplyPatch p b' = (.ret r (some e), st) →
      applyLoop (ps1 ++ p :: ps2) binary = (.ret none (some e), st) := by
  intro ps1
  induction ps1 with
  | nil =>
    intro binary b' r st ps2 hpre hfail
    simp only [applyLoop, Prod.mk.injEq, Outcome.ret.injEq, Option.some.injEq] at hpre
    obtain ⟨⟨hb, -⟩, -⟩ := hpre
    subst hb
    show applyLoop (p :: ps2) binary = (.ret none (some e), st)
    simp only [applyLoop, hfail]
  | cons q qs ih =>
    intro binary b' r st ps2 hpre hfail
    rcases hq : ApplyPatch q binary with ⟨o, st'⟩
    rcases o with ⟨rq, erq⟩ | _
    · rcases erq with _ | e'
      · simp only [List.cons_append, applyLoop, hq] at hpre ⊢
        exact ih _ _ r st ps2 hpre hfail
      · simp only [applyLoop, hq] at hpre
        simp at hpre
    · simp only [applyLoop, hq] at hpre
      simp at hpre

/-- C3: `ApplyPatchSet` applies its patches in declared order against the
same evolving buffer; the first failing patch stops the run: its error is
surfaced verbatim with a nil returned buffer, no later patch is attempted
(the result does not depend on `ps2`), and the evolving buffer keeps exactly
the mutations of the earlier successful patches — the failing patch itself
leaves it untouched (fail fast, no rollback). -/
theorem c3_patchset_failfast (nm : String) (ps1 : List Patch) (p : Patch)
    (ps2 : List Patch) (binary b' st : List Nat) (r : Option (List Nat))
    (e : PatchError)
    (hpre : applyLoop ps1 binary = (.ret (some b') none, b'))
    (hfail : ApplyPatch p b' = (.ret r (some e), st)) :
    ApplyPatchSet ⟨nm, ps1 ++ p :: ps2⟩ binary = (.ret none (some e), st) ∧ st = b' := by
  refine ⟨?_, (applyPatch_error_eq p b' r e st hfail).2⟩
  unfold ApplyPatchSet
  exact applyLoop_append_fail p e ps1 binary b' r st ps2 hpre hfail

/-- Witness for C3: the first patch commits `[9, 1, 2, 3] ↦ [9, 0xFF, 2, 3]`,
the second fails its `Before` check, the third is never attempted. -/
theorem c3_witness :
    ApplyPatchSet
        ⟨"", [⟨"", 1, [1], [0xFF]⟩, ⟨"", 2, [0x77], [0x88]⟩, ⟨"", 1, [9], [9]⟩]⟩
        [9, 1, 2, 3]
      = (.ret none (some .invalidPatch), [9, 0xFF, 2, 3])
    ∧ ([9, 0xFF, 2, 3] : List Nat) = [9, 0xFF, 2, 3] :=
  c3_patchset_failfast ("") [⟨"", 1, [1], [0xFF]⟩] ⟨"", 2, [0x77], [0x88]⟩
    [⟨"", 1, [9], [9]⟩] [9, 1, 2, 3] [9, 0xFF, 2, 3] [9, 0xFF, 2, 3] none
    .invalidPatch (by decide) (by decide)

/-- An error outcome of the patch-set loop always carries a nil buffer. -/
theorem applyLoop_error_ret (e : PatchError) :
    ∀ (ps : List Patch) (binary : List Nat) (r : Option (List Nat)) (st : List Nat),
      applyLoop ps binary = (.ret r (some e), st) → r = none := by
  intro ps
  induction ps with
  | nil =>
    intro binary r st h
    simp [applyLoop] at h
  | cons q qs ih =>
    intro binary r st h
    rcases hq : ApplyPatch q binary with ⟨o, st'⟩
    rcases o with ⟨rq, erq⟩ | _
    · rcases erq with _ | e'
      · simp only [applyLoop, hq] at h
        exact ih _ r st h
      · simp only [applyLoop, hq, Prod.mk.injEq, Outcome.ret.injEq] at h
        exact h.1.1.symm
    · simp only [applyLoop, hq] at h
      simp at h

/-- An error outcome of the set-of-sets loop always carries a nil buffer. -/
theorem setsLoop_error_ret (e : PatchError) :
    ∀ (ss : List PatchSet) (binary : List Nat) (r : Option (List Nat)) (st : List Nat),
      setsLoop ss binary = (.ret r (some e), st) → r = none := by
  intro ss
  induction ss with
  | nil =>
    intro binary r st h
    simp [setsLoop] at h
  | cons s rest ih =>
    intro binary r st h
    rcases hs : ApplyPatchSet s binary with ⟨o, st'⟩
    rcases o with ⟨rq, erq⟩ | _
    · rcases erq with _ | e'
      · simp only [setsLoop, hs] at h
        exact ih _ r st h
      · simp only [setsLoop, hs, Prod.mk.injEq, Outcome.ret.injEq] at h
        exact h.1.1.symm
    · simp only [setsLoop, hs] at h
      simp at h

/-- C10: whenever `ApplyPatch`, `ApplyPatchSet` or `ApplyPatchSets` returns a
non-nil error, the buffer component of its return value is nil — a failing
call never hands a (possibly partially mutated) buffer back through its
return value. -/
theorem c10_nil_buffer_on_error :
    (∀ (p : Patch) (binary : List Nat) (r : Option (List Nat)) (e : PatchError)
        (st : List Nat), ApplyPatch p binary = (.ret r (some e), st) → r = none)
    ∧ (∀ (s : PatchSet) (binary : List Nat) (r : Option (List Nat)) (e : PatchError)
        (st : List Nat), ApplyPatchSet s binary = (.ret r (some e), st) → r = none)
    ∧ (∀ (ss : List PatchSet) (binary : List Nat) (r : Option (List Nat))
        (e : PatchError) (st : List Nat),
        ApplyPatchSets ss binary = (.ret r (some e), st) → r = none) :=
  ⟨fun p binary r e st h => (applyPatch_error_eq p binary r e st h).1,
   fun s binary r e st h => applyLoop_error_ret e s.Patches binary r st h,
   fun ss binary r e st h => setsLoop_error_ret e ss binary r st h⟩

/-- Witness for C10 at one concrete failing call of each entry point. -/
theorem c10_witness :
    (none : Option (List Nat)) = none ∧ (none : Option (List Nat)) = none
    ∧ (none : Option (List Nat)) = none :=
  ⟨c10_nil_buffer_on_error.1 ⟨"", 0, [1], []⟩ [] none .inconsistentPatch [] (by decide),
   c10_nil_buffer_on_error.2.1 ⟨"", [⟨"", 0, [1], []⟩]⟩ [] none .inconsistentPatch []
     (by decide),
   c10_nil_buffer_on_error.2.2 [⟨"", [⟨"", 0, [1], []⟩]⟩] [] none .inconsistentPatch []
     (by decide)⟩

/-! ### Branch displacement calculation and the SUBI/ADDI relation -/

/-- C4: evaluation of `calcDestination` at the claim's inputs.  At
`from = 100, target = 100` displacement 0 is encoded; at `from = 0,
target = -4` (64-bit two's complement `0xFFFFFFFFFFFFFFFC`), where the claim
requires the in-range word count −1 (24-bit field `0xFFFFFF`),
`uint32(offset >> 2) = 0xFFFFFFFF` makes `uint24` panic; and the
out-of-signed-range word count `2 ^ 23` does not fail fast but is silently
accepted as the wrapped-to-negative field `0x800000`. -/
theorem c4_branch_displacement_bug :
    calcDestination 100 100 = some (0, 0, 0)
    ∧ calcDestination 0 (2 ^ 64 - 4) = none
    ∧ calcDestination 0 (4 * 2 ^ 23) = some (0x80, 0, 0) := by
  decide

/-- C5 as frozen is falsified at `from = 0, target = 3`: the byte difference
3 is not a multiple of 4, yet branch construction does not fail — it returns
the same encoding as the word-aligned `target = 0`. -/
theorem c5_counterexample :
    calcDestination 0 3 = some (0, 0, 0) ∧ calcDestination 0 0 = some (0, 0, 0) := by
  decide

/-- C5 (amended): a difference that is not a multiple of 4 is never detected;
`calcDestination` silently discards the low two bits of the wrapped byte
offset, returning exactly what it returns for the word-aligned target
`from + (offset / 4) * 4`. -/
theorem c5_amended_silent_rounding (fromAddr target : Nat)
    (hf : fromAddr < 2 ^ 64) (ht : target < 2 ^ 64)
    (hmis : (target + (2 ^ 64 - fromAddr)) % 2 ^ 64 % 4 ≠ 0) :
    calcDestination fromAddr target
      = calcDestination fromAddr
          ((fromAddr + (target + (2 ^ 64 - fromAddr)) % 2 ^ 64 / 4 * 4) % 2 ^ 64) := by
  unfold calcDestination
  congr 1
  have h1 : fromAddr % 2 ^ 64 = fromAddr := Nat.mod_eq_of_lt hf
  have h2 : target % 2 ^ 64 = target := Nat.mod_eq_of_lt ht
  rw [h1, h2]
  omega

/-- Witness for C5 (amended) at `from = 0, target = 3`. -/
theorem c5_witness :
    calcDestination 0 3
      = calcDestination 0 ((0 + (3 + (2 ^ 64 - 0)) % 2 ^ 64 / 4 * 4) % 2 ^ 64) :=
  c5_amended_silent_rounding 0 3 (by decide) (by decide) (by decide)

/-- C9: `SUBI rT rA value` is exactly `ADDI rT 0 n` where `n` is the 16-bit
two's-complement negation of `value`; in particular the result is completely
independent of the `rA` argument, which the body silently ignores. -/
theorem c9_subi_is_negated_addi (rT rA rA' value : Nat) :
    SUBI rT rA value = ADDI rT 0 ((2 ^ 16 - value % 2 ^ 16) % 2 ^ 16)
    ∧ SUBI rT rA value = SUBI rT rA' value :=
  ⟨rfl, rfl⟩

end PowerPC
